import Mathlib

/-!
Shallow embedding of the event-aggregation and rendering core of
`src/main.py` (care-homes monthly calendar), together with theorems
settling the specification claims about it.

Python string primitives used by the source (`str.strip`, `str.lower`,
`str.replace`, `str.isdigit`, `str.split`, ...) are modelled as
character-list functions with Python's ASCII semantics, since every
string reaching them in the modelled pipeline is ASCII (the source's
`clean_text` removes non-ASCII characters).
-/

/-- Python whitespace characters (`str.strip` / `str.isspace`, ASCII part). -/
def pyIsWs (c : Char) : Bool :=
  c = ' ' || c = '\t' || c = '\n' || c = '\r' || c.toNat = 11 || c.toNat = 12

/-- ASCII decimal digit, as in Python `str.isdigit` on ASCII input. -/
def pyIsDigitChar (c : Char) : Bool :=
  48 ≤ c.toNat && c.toNat ≤ 57

/-- ASCII lowercasing of one character (Python `str.lower` on ASCII). -/
def pyLowerChar (c : Char) : Char :=
  if 65 ≤ c.toNat && c.toNat ≤ 90 then Char.ofNat (c.toNat + 32) else c

/-- ASCII letter. -/
def pyIsAlpha (c : Char) : Bool :=
  (65 ≤ c.toNat && c.toNat ≤ 90) || (97 ≤ c.toNat && c.toNat ≤ 122)

/-- ASCII lowercase letter (a "cased lowercase" char for `str.isupper`). -/
def pyIsLowerChar (c : Char) : Bool :=
  97 ≤ c.toNat && c.toNat ≤ 122

/-- Python `s.strip()`: drop whitespace from both ends. -/
def pyStrip (s : String) : String :=
  ⟨((s.data.dropWhile pyIsWs).reverse.dropWhile pyIsWs).reverse⟩

/-- Python `s.lower()` (ASCII). -/
def pyLower (s : String) : String :=
  ⟨s.data.map pyLowerChar⟩

/-- Python `s.replace(a, b)` where `a` is a single character and `b` a string. -/
def pyReplaceChar (a : Char) (b : String) (s : String) : String :=
  ⟨s.data.flatMap (fun c => if c = a then b.data else [c])⟩

/-- Python `s.isdigit()` on ASCII input: nonempty and all decimal digits. -/
def pyIsDigit (s : String) : Bool :=
  !s.data.isEmpty && s.data.all pyIsDigitChar

/-- Numeric value of an ASCII digit string (Python `int` on such a string). -/
def digitsToNat (cs : List Char) : Nat :=
  cs.foldl (fun acc c => acc * 10 + (c.toNat - 48)) 0

/-- Python `int(s)` as used by the source, modelled on the strings that can
reach it: optional surrounding whitespace around a nonempty ASCII digit run;
anything else raises in Python, modelled as `none`. -/
def pyInt (s : String) : Option Nat :=
  let t := pyStrip s
  if pyIsDigit t then some (digitsToNat t.data) else none

/-- Python `s.split(sep)` for a single-character separator (keeps empties). -/
def pySplitChar (sep : Char) (s : String) : List String :=
  (s.data.splitOn sep).map (fun cs => ⟨cs⟩)

/-- Python `s.isupper()` on ASCII input: has a cased character and no
lowercase cased character. -/
def pyIsUpper (s : String) : Bool :=
  s.data.any pyIsAlpha && s.data.all (fun c => !pyIsLowerChar c)

/-- `clean_text` (src/main.py): replace selected typographic Unicode
characters by ASCII equivalents, remove every remaining non-ASCII
character, and strip surrounding whitespace. -/
def clean_text (s : String) : String :=
  let repl : Char → List Char := fun c =>
    if c.toNat = 0x2013 || c.toNat = 0x2014 then ['-']
    else if c.toNat = 0x2018 || c.toNat = 0x2019 then [Char.ofNat 39]
    else if c.toNat = 0x201c || c.toNat = 0x201d then ['"']
    else if c.toNat = 0x2026 then ['.', '.', '.']
    else if c.toNat = 0xa0 then [' ']
    else [c]
  pyStrip ⟨(s.data.flatMap repl).filter (fun c => c.toNat ≤ 127)⟩

/-! ## Dates (`datetime.date`, `calendar`) -/

/-- A Gregorian calendar date. -/
structure Date where
  year : Nat
  month : Nat
  day : Nat
deriving DecidableEq, Repr

/-- Gregorian leap year (`calendar.isleap`). -/
def isLeap (y : Nat) : Bool :=
  y % 4 = 0 && (y % 100 ≠ 0 || y % 400 = 0)

/-- Number of days in a month (`calendar.monthrange(y, m)[1]`). -/
def daysInMonthN (y m : Nat) : Nat :=
  if m = 2 then (if isLeap y then 29 else 28)
  else if m = 4 || m = 6 || m = 9 || m = 11 then 30
  else 31

/-- Days in all years strictly before year `y` (proleptic Gregorian). -/
def daysBeforeYear (y : Nat) : Nat :=
  365 * (y - 1) + (y - 1) / 4 + (y - 1) / 400 - (y - 1) / 100

/-- Days in the months of year `y` strictly before month `m`. -/
def daysBeforeMonth (y m : Nat) : Nat :=
  ((List.range (m - 1)).map (fun k => daysInMonthN y (k + 1))).sum

/-- Proleptic-Gregorian ordinal of a date (`date.toordinal`:
0001-01-01 has ordinal 1). -/
def dateOrdinal (d : Date) : Nat :=
  daysBeforeYear d.year + daysBeforeMonth d.year d.month + d.day

/-- `date.weekday()`: Monday = 0 .. Sunday = 6. -/
def weekdayN (d : Date) : Nat :=
  (dateOrdinal d + 6) % 7

/-- `calendar.day_name[w][:3].lower()`. -/
def dayCode (w : Nat) : String :=
  [ "mon", "tue", "wed", "thu", "fri", "sat", "sun" ].getD w ""

/-- The dates of a month in ascending order: the key sequence of the
`daymap` dict built on line 101 of src/main.py. -/
def monthDates (y m : Nat) : List Date :=
  (List.range (daysInMonthN y m)).map (fun i => ⟨y, m, i + 1⟩)

/-! ## Time normalizer (src/main.py lines 170-181) -/

/-- The regex `^(\d{1,2})(?::?(\d{2}))?$`: a 1-2 digit hour, optionally
followed by a 2-digit minute with an optional `:` between them.  Returns
the hour characters and, when present, the minute characters. -/
def matchTimePattern : List Char → Option (List Char × Option (List Char))
  | [a] => if pyIsDigitChar a then some ([a], none) else none
  | [a, b] =>
      if b = ':' then none
      else if pyIsDigitChar a && pyIsDigitChar b then some ([a, b], none) else none
  | [a, b, c] =>
      if b = ':' || c = ':' then none
      else if pyIsDigitChar a && pyIsDigitChar b && pyIsDigitChar c then
        some ([a], some [b, c])
      else none
  | [a, b, c, d] =>
      if b = ':' then
        if pyIsDigitChar a && pyIsDigitChar c && pyIsDigitChar d then
          some ([a], some [c, d])
        else none
      else if c = ':' || d = ':' then none
      else if pyIsDigitChar a && pyIsDigitChar b && pyIsDigitChar c && pyIsDigitChar d then
        some ([a, b], some [c, d])
      else none
  | [a, b, c, d, e] =>
      if c = ':' then
        if pyIsDigitChar a && pyIsDigitChar b && pyIsDigitChar d && pyIsDigitChar e then
          some ([a, b], some [d, e])
        else none
      else none
  | _ => none

/-- Python `hour.zfill(2)` on the 1-2 character hour group. -/
def zfill2 (cs : List Char) : List Char :=
  if cs.length = 1 then '0' :: cs else cs

/-- The cleaning step of `normalize_time`:
`t.strip().lower().replace(".", ":").replace(" ", "")`. -/
def pyCleanTime (t : String) : String :=
  pyReplaceChar ' ' "" (pyReplaceChar '.' ":" (pyLower (pyStrip t)))

/-- `normalize_time` (src/main.py): canonical `"HH:MM"` or no-time.
The source also returns no-time when handed a non-string (`None`); callers
in the modelled pipeline always pass a string, and the empty string is
falsy in Python, hence rejected by the pattern (no 0-length match). -/
def normalize_time (t : String) : Option String :=
  match matchTimePattern (pyCleanTime t).data with
  | some (h, mo) => some ⟨zfill2 h ++ ':' :: (mo.getD ['0', '0'])⟩
  | none => none

/-! ## Events and the aggregation pipeline (src/main.py lines 99-217) -/

/-- One entry of a day's event list: the dict
`{"time": ..., "title": ..., "notes": ...}` of the source. -/
structure Event where
  time : Option String
  title : String
  notes : String
deriving DecidableEq, Repr

/-- A raw `fixed`/`activity` event before time normalization (its `time`
field still holds the free-form text). -/
structure RawEvent where
  date : Date
  time : String
  title : String
  notes : String
deriving DecidableEq, Repr

/-- The day→events mapping; keys are kept in insertion (ascending) order,
as a Python dict does. -/
def DayMap : Type := List (Date × List Event)

/-- The skeleton daymap: every date of the month mapped to `[]`
(src/main.py line 101). -/
def monthSkeleton (y m : Nat) : DayMap :=
  (monthDates y m).map (fun d => (d, []))

/-- Append an event to the list of day `d` when `d` is a key
(`if d in daymap: daymap[d].append(...)`); otherwise leave the map
unchanged. -/
def appendAt (dm : DayMap) (d : Date) (e : Event) : DayMap :=
  dm.map (fun p => if p.1 = d then (p.1, p.2 ++ [e]) else p)

/-- A holiday input row `{date, title}`, already fetched and date-parsed by
the external holiday sources. -/
structure HolidayInput where
  date : Date
  title : String
deriving DecidableEq, Repr

/-- Holiday aggregation (src/main.py lines 104-124): walk the combined
holiday list, skip rows whose `(date, cleaned lowercased title)` was
already seen, and append the rest to their day when the date is a key. -/
def holidayFold : DayMap × List (Date × String) → List HolidayInput →
    DayMap × List (Date × String)
  | st, [] => st
  | (dm, seen), ev :: rest =>
      let tn := pyLower (pyStrip (clean_text ev.title))
      if (ev.date, tn) ∈ seen then holidayFold (dm, seen) rest
      else
        holidayFold (appendAt dm ev.date ⟨none, ev.title, "Holiday"⟩,
          (ev.date, tn) :: seen) rest

def holidayStage (dm : DayMap) (hs : List HolidayInput) : DayMap :=
  (holidayFold (dm, []) hs).1

/-- A staff-rota row; `date` is the result of the `pd.to_datetime` parse
(`none` models a parse failure, which skips the row). -/
structure RotaRow where
  date : Option Date
  staff : String
  shift_start : String
  shift_end : String
deriving DecidableEq, Repr

/-- `re.sub(r"\s*\d+$", "", staff)`: strip one trailing run of digits and
the whitespace before it, when the string ends in at least one digit. -/
def stripTrailingNum (s : String) : String :=
  let rev := s.data.reverse
  let ds := rev.takeWhile pyIsDigitChar
  if ds.isEmpty then s
  else ⟨(((rev.dropWhile pyIsDigitChar).dropWhile pyIsWs)).reverse⟩

/-- Processing of one staff-rota row (src/main.py lines 129-142). -/
def shiftBody (m : DayMap) (r : RotaRow) : DayMap :=
  match r.date with
  | none => m
  | some d =>
      let staff := stripTrailingNum (clean_text r.staff)
      let start := pyStrip r.shift_start
      let stop := pyStrip r.shift_end
      let shiftTime :=
        if start ≠ "" ∧ stop ≠ "" then "(" ++ start ++ " – " ++ stop ++ ")" else ""
      let display := pyStrip (staff ++ " " ++ shiftTime)
      if display ≠ "" then appendAt m d ⟨none, display, "staff shift"⟩ else m

/-- Staff-shift aggregation (src/main.py lines 128-142). -/
def shiftStage (dm : DayMap) (rows : List RotaRow) : DayMap :=
  rows.foldl shiftBody dm

/-- A fixed weekly rule `{weekday, time, title}`. -/
structure Rule where
  weekday : Nat
  time : String
  title : String
deriving DecidableEq, Repr

/-- Fixed-rule expansion (src/main.py lines 145-149): for every rule, one
raw event on every date of the month with the rule's weekday. -/
def fixedStage (dates : List Date) (rules : List Rule) : List RawEvent :=
  rules.flatMap (fun rule =>
    (dates.filter (fun d => weekdayN d = rule.weekday)).map
      (fun d => ⟨d, rule.time, clean_text rule.title, "fixed"⟩))

/-- An activities-CSV row, all fields as raw text. -/
structure ActivityRow where
  name : String
  preferred_days : String
  preferred_time : String
  frequency : String
deriving DecidableEq, Repr

/-- `[p.strip()[:3].lower() for p in preferred_days.split(";") if p.strip()]`. -/
def prefDayCodes (s : String) : List String :=
  (pySplitChar ';' s).filterMap (fun p =>
    if pyStrip p ≠ "" then some (pyLower ⟨(pyStrip p).data.take 3⟩) else none)

/-- `int(frequency) if frequency.isdigit() else 0`. -/
def parseFreq (s : String) : Nat :=
  if pyIsDigit s then digitsToNat s.data else 0

/-- The placement loop body (src/main.py lines 160-167): walk the month's
dates in ascending order with a `placed` counter, breaking once `freq`
placements were emitted when `freq` is nonzero. -/
def actLoop (prefDays : List String) (freq : Nat) (tm name : String) :
    List Date → Nat → List RawEvent
  | [], _ => []
  | d :: ds, placed =>
      if freq ≠ 0 ∧ freq ≤ placed then []
      else if dayCode (weekdayN d) ∈ prefDays then
        ⟨d, tm, name, "activity"⟩ :: actLoop prefDays freq tm name ds (placed + 1)
      else actLoop prefDays freq tm name ds placed

/-- Activity aggregation (src/main.py lines 152-167). -/
def activityStage (dates : List Date) (rows : List ActivityRow) : List RawEvent :=
  rows.flatMap (fun r =>
    actLoop (prefDayCodes r.preferred_days) (parseFreq r.frequency)
      (pyStrip r.preferred_time) (clean_text r.name) dates 0)

/-- Normalize a raw event's time (src/main.py lines 183-185). -/
def normEvent (ev : RawEvent) : Date × Event :=
  (ev.date, ⟨normalize_time ev.time, ev.title, ev.notes⟩)

/-- Insert one `fixed`/`activity` candidate into a day's event list under
the deduplication policy (src/main.py lines 191-199). -/
def insertCandidate (es : List Event) (c : Event) : List Event :=
  let titleNorm := pyStrip (pyLower c.title)
  let dups := es.filter (fun e => pyStrip (pyLower e.title) = titleNorm)
  if dups ≠ [] ∧
      (dups.any (fun e => e.time = c.time) ∨
        (dups.any (fun e => ∃ t, e.time = some t ∧ t.length = 5) ∧ c.time = none)) then
    es
  else es ++ [c]

/-- Insert a dated candidate into the daymap (`if d not in daymap: continue`
keeps out-of-month events from creating keys). -/
def insertEventDM (dm : DayMap) (p : Date × Event) : DayMap :=
  dm.map (fun q => if q.1 = p.1 then (q.1, insertCandidate q.2 p.2) else q)

/-! ## Sort policy (src/main.py lines 201-216) -/

/-- Split a canonical candidate time on `:` and validate it as
`datetime.time(h, m)` does; the `except` branch of `sort_key` maps any
failure to end-of-day. Result encoded as minutes past midnight. -/
def clockOfString (t : String) : Option Nat :=
  match pySplitChar ':' t with
  | [hs, ms] =>
      match pyInt hs, pyInt ms with
      | some h, some m => if h ≤ 23 ∧ m ≤ 59 then some (h * 60 + m) else none
      | _, _ => none
  | _ => none

/-- `sort_key` (src/main.py lines 201-209): untimed and unparseable/invalid
times sort as 23:59. -/
def sortKeyTime (e : Event) : Nat :=
  match e.time with
  | none => 23 * 60 + 59
  | some t => (clockOfString t).getD (23 * 60 + 59)

/-- Category priority: 0 holiday, 1 staff shift, 2 everything else. -/
def catPriority (e : Event) : Nat :=
  if e.notes = "Holiday" then 0 else if e.notes = "staff shift" then 1 else 2

/-- The full lexicographic sort key `(category, time)` encoded as one Nat
(`sortKeyTime` is always < 1440). -/
def keyNat (e : Event) : Nat :=
  catPriority e * 1440 + sortKeyTime e

/-- The sort relation used per day. -/
def evLe (a b : Event) : Prop := keyNat a ≤ keyNat b

instance : DecidableRel evLe := fun _ _ => Nat.decLe _ _

instance : IsTotal Event evLe := ⟨fun a b => Nat.le_total (keyNat a) (keyNat b)⟩

instance : IsTrans Event evLe := ⟨fun _ _ _ h h' => Nat.le_trans h h'⟩

/-- Python's per-day `list.sort(key=...)` is a stable sort by the key;
insertion sort with the non-strict key order computes exactly that. -/
def daySort (l : List Event) : List Event :=
  List.insertionSort evLe l

/-- `seat_activity_into_calendar` (src/main.py lines 99-217).  The holiday
list stands for the already-fetched external holiday data; rota rows carry
their date-parse result. -/
def seat_activity_into_calendar (year month : Nat) (activities : List ActivityRow)
    (rota : List RotaRow) (rules : List Rule) (include_holidays : Bool)
    (holidays : List HolidayInput) : DayMap :=
  let dm0 := monthSkeleton year month
  let dm1 := if include_holidays then holidayStage dm0 holidays else dm0
  let dm2 := shiftStage dm1 rota
  let allEvents := fixedStage (monthDates year month) rules ++
    activityStage (monthDates year month) activities
  let dm3 := (allEvents.map normEvent).foldl insertEventDM dm2
  dm3.map (fun p => (p.1, daySort p.2))

/-- Look a date up in a daymap. -/
def lookupDay (dm : DayMap) (d : Date) : Option (List Event) :=
  (dm.find? (fun p => p.1 = d)).map Prod.snd

/-! ## Document renderer, per-cell text flow (src/main.py lines 343-412)

The source measures its geometry in millimetres (every constant is
multiplied by `mm`); all the constants involved are multiples of 0.1 mm
and the grid division is exact, so positions are modelled as integers in
units of 0.1 mm.  `drawCell` records which sub-lines the cell loop draws
and at which vertical position. -/

/-- Break a run of characters into pieces of at most `w` characters
(`textwrap`'s `break_long_words` on a word longer than the width). -/
def chunksOf (w : Nat) (cs : List Char) : List (List Char) :=
  if h : w = 0 ∨ cs = [] then []
  else cs.take w :: chunksOf w (cs.drop w)
termination_by cs.length
decreasing_by
  simp only [not_or] at h
  have hlen : 0 < cs.length := List.length_pos.mpr h.2
  simp only [List.length_drop]
  omega

/-- Greedy line filling over whitespace-separated words, modelling
`textwrap.wrap(s, width=w)` with its default flags: words are packed
left to right with single spaces while the line stays within `w`
characters, and words longer than `w` are split into `w`-sized pieces. -/
def packWords (w : Nat) : List (List Char) → List Char → List (List Char)
  | [], cur => if cur.isEmpty then [] else [cur]
  | x :: xs, cur =>
      if cur.isEmpty then packWords w xs x
      else if cur.length + 1 + x.length ≤ w then packWords w xs (cur ++ ' ' :: x)
      else cur :: packWords w xs x

def wrapGreedy (w : Nat) (s : String) : List String :=
  let words := ((s.data.splitOn ' ').filter (fun cs => !cs.isEmpty)).flatMap
    (fun cs => if cs.length ≤ w then [cs] else chunksOf w cs)
  (packWords w words []).map (fun cs => ⟨cs⟩)

/-- Render style assigned to a sub-line by the cell loop's pattern tests. -/
inductive Style where
  | holiday
  | staff
  | timed
  | plain
deriving DecidableEq, Repr

/-- Leading clock-time test of the activity branch: the regex
`^(\d{1,2}:\d{2}\s?(?:am|pm|AM|PM)?)\s?(.*)` matches exactly when the line
starts with 1-2 digits, `:`, and 2 digits. -/
def startsWithClock : List Char → Bool
  | a :: ':' :: c :: d :: _ =>
      pyIsDigitChar a && pyIsDigitChar c && pyIsDigitChar d
  | a :: b :: ':' :: d :: e :: _ =>
      pyIsDigitChar a && pyIsDigitChar b && pyIsDigitChar d && pyIsDigitChar e
  | _ => false

/-- `subline.lower().startswith("staff:")`. -/
def startsWithStaff (s : String) : Bool :=
  List.isPrefixOf "staff:".data (pyLower s).data

/-- One drawn sub-line: its text, the `text_y` (in 0.1 mm) at which it was
drawn, and its style class. -/
structure Drawn where
  text : String
  ypos : Int
  style : Style
deriving DecidableEq, Repr

/-- Vertical advance per sub-line (`line_spacing = 4 * mm`). -/
def lineSpacing : Int := 40

/-- The holiday branch: rewrap the sub-line at width 28 and draw every
piece, advancing the cursor with no budget check. -/
def holidaySubs : List String → Int → List Drawn × Int
  | [], ty => ([], ty)
  | wh :: rest, ty =>
      let w := pyStrip wh
      if w = "" then holidaySubs rest ty
      else
        let (ds, ty') := holidaySubs rest (ty - lineSpacing)
        (⟨w, ty, Style.holiday⟩ :: ds, ty')

/-- The inner sub-line loop of one logical line.  `ybound` is
`y + 4 * mm`; only the timed/plain branch checks it, after drawing, and
its `break` ends just this inner loop. -/
def renderSubs (ybound : Int) : List String → Int → List Drawn × Int
  | [], ty => ([], ty)
  | sl :: rest, ty =>
      let s := pyStrip sl
      if s = "" then renderSubs ybound rest ty
      else if pyIsUpper s then
        let (ds, ty') := holidaySubs (wrapGreedy 28 s) ty
        let (ds', ty'') := renderSubs ybound rest ty'
        (ds ++ ds', ty'')
      else if startsWithStaff s then
        let (ds, ty') := renderSubs ybound rest (ty - lineSpacing)
        (⟨s, ty, Style.staff⟩ :: ds, ty')
      else
        let st := if startsWithClock s.data then Style.timed else Style.plain
        let ty' := ty - lineSpacing
        if ty' < ybound then ([⟨s, ty, st⟩], ty')
        else
          let (ds, ty'') := renderSubs ybound rest ty'
          (⟨s, ty, st⟩ :: ds, ty'')

/-- The outer loop over a cell's logical lines (`for line in lines`). -/
def renderLines (ybound : Int) : List String → Int → List Drawn
  | [], _ => []
  | ln :: rest, ty =>
      let l := pyStrip (clean_text ln)
      if l = "" then renderLines ybound rest ty
      else
        let (ds, ty') := renderSubs ybound (wrapGreedy 31 l) ty
        ds ++ renderLines ybound rest ty'

/-- Text flow of one day cell at corner `(x, y)` with row height `rh`:
split the cell's text on newlines and run the line loop, the cursor
starting at `y + row_h - 6 * mm` with usable bound `y + 4 * mm`. -/
def drawCell (y rh : Int) (txt : String) : List Drawn :=
  renderLines (y + 40) (pySplitChar '\n' txt) (y + rh - 60)

/-- Row height of the rendered 7×5 grid in 0.1 mm: page height 297 mm,
top margin 37 mm, bottom margin 1 mm, weekday bar at `height - top + 6 mm`
with a 1.5 mm gap below it, five rows (the division is exact). -/
def rowHeight : Int := ((2970 - 370 + 60 - 15) - 10) / 5

/-! ## Auxiliary definitions used by the claim statements -/

/-- The key sequence of a daymap. -/
def dmKeys (dm : DayMap) : List Date := dm.map Prod.fst

/-- All events of every day satisfy `P`. -/
def dayAll (P : Event → Bool) (dm : DayMap) : Bool :=
  dm.all (fun p => p.2.all P)

/-- A candidate duplicates an existing entry of the day in the sense of the
discard conditions of src/main.py lines 195-198: some same-titled existing
event has exactly the candidate's normalized time, or some same-titled
existing event has a full canonical (length-5) time while the candidate has
none. -/
def dupPred (es : List Event) (c : Event) : Prop :=
  ∃ e ∈ es, pyStrip (pyLower e.title) = pyStrip (pyLower c.title) ∧
    (e.time = c.time ∨ ((∃ t, e.time = some t ∧ t.length = 5) ∧ c.time = none))

/-- Some untimed event is followed, later in the list, by a timed event of
the same category group. -/
def untimedBeforeTimedSameCat (l : List Event) : Bool :=
  l.enum.any (fun p =>
    p.2.time = none &&
      (l.drop (p.1 + 1)).any (fun f => f.time ≠ none && catPriority f = catPriority p.2))

/-- One witness of the accepted shape of the time-normalizer pattern on a
cleaned input: a 1-2 digit hour group `hcs` and an optional 2-digit minute
group, where the colon before the minute is itself optional. -/
def shapeW (u : String) (hcs : List Char) (mo : Option (List Char)) : Prop :=
  (hcs.length = 1 ∨ hcs.length = 2) ∧ hcs.all pyIsDigitChar = true ∧
    ((mo = none ∧ u.data = hcs) ∨
      (∃ mcs, mo = some mcs ∧ mcs.length = 2 ∧ mcs.all pyIsDigitChar = true ∧
        (u.data = hcs ++ ':' :: mcs ∨ u.data = hcs ++ mcs)))

/-- The cleaned input is accepted by the normalizer's pattern. -/
def acceptedTimeShape (u : String) : Prop :=
  ∃ hcs mo, shapeW u hcs mo

/-- Modelled from the spec: the shape `digits[:digits]` of §4.4 read as
written — a 1-2 digit hour, optionally followed by a colon and a 2-digit
minute, the colon mandatory whenever the minute is present.  Kept separate
from the source-derived pattern for comparison. -/
def specTimeShape (u : String) : Prop :=
  ∃ hcs : List Char, (hcs.length = 1 ∨ hcs.length = 2) ∧ hcs.all pyIsDigitChar = true ∧
    (u.data = hcs ∨ ∃ mcs : List Char, mcs.length = 2 ∧ mcs.all pyIsDigitChar = true ∧
      u.data = hcs ++ ':' :: mcs)

/-- Match test of the activity placement: the date's weekday code is among
the row's preferred day codes. -/
def dateMatches (prefDays : List String) (d : Date) : Bool :=
  dayCode (weekdayN d) ∈ prefDays

/-- The raw activity event emitted for one placed date. -/
def mkActivityEvent (tm name : String) (d : Date) : RawEvent :=
  ⟨d, tm, name, "activity"⟩

/-- Two fixed Thursday rules, one untimed and one at the last canonical
minute of the day. -/
def demoRules : List Rule := [⟨3, "", "Snack"⟩, ⟨3, "23:59", "Tea"⟩]

/-- A cell text of thirteen one-word logical lines. -/
def demoCellText : String :=
  "tea\ntea\ntea\ntea\ntea\ntea\ntea\ntea\ntea\ntea\ntea\ntea\ntea"

/-! ## Theorems -/

theorem insertCandidate_cond_iff (es : List Event) (c : Event) :
    (es.filter (fun e => pyStrip (pyLower e.title) = pyStrip (pyLower c.title)) ≠ [] ∧
      ((es.filter (fun e => pyStrip (pyLower e.title) = pyStrip (pyLower c.title))).any
          (fun e => e.time = c.time) = true ∨
        ((es.filter (fun e => pyStrip (pyLower e.title) = pyStrip (pyLower c.title))).any
            (fun e => ∃ t, e.time = some t ∧ t.length = 5) = true ∧ c.time = none))) ↔
      dupPred es c := by
  constructor
  · rintro ⟨-, h | ⟨h, hnone⟩⟩
    · obtain ⟨e, he, hp⟩ := List.any_eq_true.mp h
      simp only [List.mem_filter, decide_eq_true_eq] at he
      exact ⟨e, he.1, he.2, Or.inl (by simpa using hp)⟩
    · obtain ⟨e, he, hp⟩ := List.any_eq_true.mp h
      simp only [List.mem_filter, decide_eq_true_eq] at he
      exact ⟨e, he.1, he.2, Or.inr ⟨by simpa using hp, hnone⟩⟩
  · rintro ⟨e, he, htitle, hor⟩
    have hmem : e ∈ es.filter
        (fun e => pyStrip (pyLower e.title) = pyStrip (pyLower c.title)) :=
      List.mem_filter.mpr ⟨he, by simpa using htitle⟩
    refine ⟨List.ne_nil_of_mem hmem, ?_⟩
    rcases hor with ht | ⟨hlen, hnone⟩
    · exact Or.inl (List.any_eq_true.mpr ⟨e, hmem, by simpa using ht⟩)
    · exact Or.inr ⟨List.any_eq_true.mpr ⟨e, hmem, by simpa using hlen⟩, hnone⟩

theorem insertCandidate_eq_iff (es : List Event) (c : Event) :
    (insertCandidate es c = es ↔ dupPred es c) ∧
    (insertCandidate es c = es ++ [c] ↔ ¬ dupPred es c) := by
  have hne : es ++ [c] ≠ es := by
    intro h
    have := congrArg List.length h
    simp at this
  simp only [insertCandidate]
  split_ifs with h
  · have hd := (insertCandidate_cond_iff es c).mp h
    exact ⟨iff_of_true rfl hd, iff_of_false (fun he => hne he.symm) (not_not_intro hd)⟩
  · have hd : ¬ dupPred es c := fun x => h ((insertCandidate_cond_iff es c).mpr x)
    exact ⟨iff_of_false hne hd, iff_of_true rfl hd⟩

/-- C1: a candidate `fixed`/`activity` event is discarded exactly when some
same-titled (lowercased, trimmed) existing event of the day has a time
equal to the candidate's normalized time, or some same-titled existing
event has a full canonical (length-5) time while the candidate has none;
in every other case the candidate is appended as an additional, distinct
entry.  The concrete conjuncts replay the spec's Film Night scenarios: an
untimed duplicate of an existing 18:00 entry is discarded, while a 19:00
duplicate of the same title joins it, yielding two entries. -/
theorem claim1_dedup_policy (es : List Event) (c : Event) :
    (insertCandidate es c = es ↔ dupPred es c) ∧
    (insertCandidate es c = es ++ [c] ↔ ¬ dupPred es c) ∧
    insertCandidate [⟨some "18:00", "Film Night", "activity"⟩]
        ⟨none, "Film Night", "fixed"⟩ = [⟨some "18:00", "Film Night", "activity"⟩] ∧
    insertCandidate [⟨some "18:00", "Film Night", "activity"⟩]
        ⟨some "19:00", "Film Night", "fixed"⟩ =
      [⟨some "18:00", "Film Night", "activity"⟩,
        ⟨some "19:00", "Film Night", "fixed"⟩] :=
  ⟨(insertCandidate_eq_iff es c).1, (insertCandidate_eq_iff es c).2,
    by decide, by decide⟩

theorem filter_key_orderedInsert (a : Event) (l : List Event) (k : Nat) :
    (List.orderedInsert evLe a l).filter (fun e => keyNat e = k) =
      if keyNat a = k then a :: l.filter (fun e => keyNat e = k)
      else l.filter (fun e => keyNat e = k) := by
  induction l with
  | nil =>
      simp only [List.orderedInsert, List.filter]
      by_cases hk : keyNat a = k <;> simp [hk]
  | cons b t ih =>
      by_cases hab : evLe a b
      · rw [List.orderedInsert_of_le _ _ hab]
        by_cases hk : keyNat a = k <;> simp [List.filter, hk]
      · have hba : keyNat b < keyNat a := by
          simpa [evLe, Nat.not_le] using hab
        rw [show List.orderedInsert evLe a (b :: t) = b :: List.orderedInsert evLe a t by
          simp [List.orderedInsert, hab]]
        by_cases hk : keyNat a = k
        · have hbk : ¬ keyNat b = k := by omega
          simp [List.filter, hbk, ih, hk]
        · by_cases hbk : keyNat b = k <;> simp [List.filter, hbk, ih, hk]

theorem filter_key_daySort (l : List Event) (k : Nat) :
    (daySort l).filter (fun e => keyNat e = k) = l.filter (fun e => keyNat e = k) := by
  induction l with
  | nil => rfl
  | cons a t ih =>
      show (List.orderedInsert evLe a (daySort t)).filter _ = _
      rw [filter_key_orderedInsert]
      by_cases hk : keyNat a = k <;> simp [List.filter, hk, ih]

/-- C2 counterexample: with two fixed Thursday rules — an untimed "Snack"
inserted before a "Tea" at 23:59 — the resulting day list of 2025-11-06
keeps the untimed event *before* the timed one (both share the end-of-day
sort key and the stable sort preserves insertion order), so an event
lacking a time does not always sort after all timed events of its
category group. -/
theorem claim2_counterexample :
    lookupDay (seat_activity_into_calendar 2025 11 [] [] demoRules false [])
        ⟨2025, 11, 6⟩ =
      some [⟨none, "Snack", "fixed"⟩, ⟨some "23:59", "Tea", "fixed"⟩] ∧
    untimedBeforeTimedSameCat
      [⟨none, "Snack", "fixed"⟩, ⟨some "23:59", "Tea", "fixed"⟩] = true := by
  constructor
  · decide
  · decide

/-- C2 (amended): every day's final list is obtained by the stable sort by
`(category priority, time, untimed/unparseable as 23:59)`: the per-day sort
permutes the inserted events, leaves them pairwise ordered by the key (so
every event sorts after all events of strictly smaller key — in particular
untimed events come after every timed same-category event whose time is
strictly before 23:59), and preserves the insertion order of events with
equal keys (through which an untimed event may legitimately remain before
a same-titled-group event timed exactly 23:59).  The last conjunct states
the sortedness over the whole pipeline result. -/
theorem claim2_stable_sort (l : List Event) (y m : Nat)
    (acts : List ActivityRow) (rota : List RotaRow) (rules : List Rule)
    (inc : Bool) (hols : List HolidayInput) :
    (daySort l).Perm l ∧
    List.Sorted evLe (daySort l) ∧
    (∀ k : Nat, (daySort l).filter (fun e => keyNat e = k) =
      l.filter (fun e => keyNat e = k)) ∧
    (seat_activity_into_calendar y m acts rota rules inc hols).all
      (fun p => decide (List.Sorted evLe p.2)) = true := by
  refine ⟨List.perm_insertionSort evLe l, List.sorted_insertionSort evLe l,
    fun k => filter_key_daySort l k, ?_⟩
  simp only [seat_activity_into_calendar, List.all_eq_true, List.mem_map]
  rintro p ⟨q, -, rfl⟩
  exact decide_eq_true (List.sorted_insertionSort evLe q.2)

theorem actLoop_zero (prefDays : List String) (tm name : String) :
    ∀ (dates : List Date) (placed : Nat),
      actLoop prefDays 0 tm name dates placed =
        (dates.filter (dateMatches prefDays)).map (mkActivityEvent tm name) := by
  intro dates
  induction dates with
  | nil => intro placed; rfl
  | cons d ds ih =>
      intro placed
      by_cases hm : dayCode (weekdayN d) ∈ prefDays
      · simp [actLoop, hm, List.filter_cons, dateMatches, ih, mkActivityEvent]
      · simp [actLoop, hm, List.filter_cons, dateMatches, ih]

theorem actLoop_pos (prefDays : List String) (tm name : String) (freq : Nat)
    (hf : freq ≠ 0) :
    ∀ (dates : List Date) (placed : Nat),
      actLoop prefDays freq tm name dates placed =
        ((dates.filter (dateMatches prefDays)).take (freq - placed)).map
          (mkActivityEvent tm name) := by
  intro dates
  induction dates with
  | nil => intro placed; simp [actLoop]
  | cons d ds ih =>
      intro placed
      by_cases hstop : freq ≤ placed
      · have : freq - placed = 0 := by omega
        simp [actLoop, hf, hstop, this]
      · have hlt : ∃ n, freq - placed = n + 1 := ⟨freq - placed - 1, by omega⟩
        obtain ⟨n, hn⟩ := hlt
        by_cases hm : dayCode (weekdayN d) ∈ prefDays
        · have hn' : freq - (placed + 1) = n := by omega
          simp [actLoop, hf, hstop, hm, List.filter_cons, dateMatches, hn, hn', ih,
            mkActivityEvent]
        · simp [actLoop, hf, hstop, hm, List.filter_cons, dateMatches, hn, ih]

/-- C4: the placement loop walks the month's dates in ascending order and
places the activity on exactly the first `min(freq, number of matching
dates)` dates whose weekday code is preferred when `freq > 0`, and on every
matching date when `freq = 0`. -/
theorem claim4_frequency_cap (y m : Nat) (prefDays : List String)
    (freq : Nat) (tm name : String) :
    (0 < freq → actLoop prefDays freq tm name (monthDates y m) 0 =
      (((monthDates y m).filter (dateMatches prefDays)).take freq).map
        (mkActivityEvent tm name)) ∧
    actLoop prefDays 0 tm name (monthDates y m) 0 =
      ((monthDates y m).filter (dateMatches prefDays)).map (mkActivityEvent tm name) ∧
    (0 < freq → (actLoop prefDays freq tm name (monthDates y m) 0).length =
      min freq ((monthDates y m).filter (dateMatches prefDays)).length) := by
  refine ⟨fun hf => ?_, actLoop_zero prefDays tm name (monthDates y m) 0, fun hf => ?_⟩
  · simpa using actLoop_pos prefDays tm name freq (by omega) (monthDates y m) 0
  · rw [actLoop_pos prefDays tm name freq (by omega) (monthDates y m) 0]
    simp [List.length_take]

theorem claim4_frequency_cap_witness :
    0 < 12 ∧
    actLoop ["mon", "wed", "fri", "sun"] 12 "11:00" "Coffee" (monthDates 2025 11) 0 =
      (((monthDates 2025 11).filter
          (dateMatches ["mon", "wed", "fri", "sun"])).take 12).map
        (mkActivityEvent "11:00" "Coffee") :=
  ⟨by norm_num,
    (claim4_frequency_cap 2025 11 ["mon", "wed", "fri", "sun"] 12 "11:00" "Coffee").1
      (by norm_num)⟩

/-- C10: a frequency field that is not a plain digit string is treated as
0, and frequency 0 places the activity on every matching date of the
month (unbounded placement, not zero placements). -/
theorem claim10_freq_fallback (s : String) (dates : List Date)
    (prefDays : List String) (tm name : String) (h : pyIsDigit s = false) :
    parseFreq s = 0 ∧
    actLoop prefDays (parseFreq s) tm name dates 0 =
      (dates.filter (dateMatches prefDays)).map (mkActivityEvent tm name) ∧
    parseFreq "-3" = 0 ∧ parseFreq "" = 0 ∧ parseFreq "abc" = 0 ∧
    parseFreq "3.0" = 0 := by
  have h0 : parseFreq s = 0 := by simp [parseFreq, h]
  exact ⟨h0, by rw [h0]; exact actLoop_zero prefDays tm name dates 0,
    by decide, by decide, by decide, by decide⟩

theorem claim10_freq_fallback_witness :
    pyIsDigit "-3" = false ∧
    (parseFreq "-3" = 0 ∧
      actLoop ["mon"] (parseFreq "-3") "10:00" "Bingo" (monthDates 2025 11) 0 =
        ((monthDates 2025 11).filter (dateMatches ["mon"])).map
          (mkActivityEvent "10:00" "Bingo") ∧
      parseFreq "-3" = 0 ∧ parseFreq "" = 0 ∧ parseFreq "abc" = 0 ∧
      parseFreq "3.0" = 0) :=
  ⟨by decide, claim10_freq_fallback "-3" (monthDates 2025 11) ["mon"] "10:00" "Bingo"
    (by decide)⟩

theorem monthDates_days (y m : Nat) :
    (monthDates y m).map Date.day = List.range' 1 (daysInMonthN y m) := by
  have : Date.day ∘ (fun i => (⟨y, m, i + 1⟩ : Date)) = fun i => 1 + i := by
    funext i
    simpa using Nat.add_comm i 1
  simp [monthDates, List.map_map, List.range'_eq_map_range, this]

theorem dmKeys_map_fst (dm : DayMap) (f : Date × List Event → Date × List Event)
    (hf : ∀ p, (f p).1 = p.1) : dmKeys (dm.map f) = dmKeys dm := by
  induction dm with
  | nil => rfl
  | cons p t ih =>
      simp only [dmKeys, List.map_cons] at ih ⊢
      rw [hf p, ih]

theorem dmKeys_appendAt (dm : DayMap) (d : Date) (e : Event) :
    dmKeys (appendAt dm d e) = dmKeys dm := by
  apply dmKeys_map_fst
  intro p
  by_cases h : p.1 = d <;> simp [h]

theorem dmKeys_insertEventDM (dm : DayMap) (p : Date × Event) :
    dmKeys (insertEventDM dm p) = dmKeys dm := by
  apply dmKeys_map_fst
  intro q
  by_cases h : q.1 = p.1 <;> simp [h]

theorem dmKeys_holidayFold (hs : List HolidayInput) :
    ∀ (dm : DayMap) (seen : List (Date × String)),
      dmKeys (holidayFold (dm, seen) hs).1 = dmKeys dm := by
  induction hs with
  | nil => intro dm seen; rfl
  | cons ev rest ih =>
      intro dm seen
      rw [holidayFold]
      by_cases h : (ev.date, pyLower (pyStrip (clean_text ev.title))) ∈ seen
      · simpa [h] using ih dm seen
      · simpa [h] using (ih _ _).trans (dmKeys_appendAt dm ev.date _)

theorem dmKeys_foldl {α : Type} (body : DayMap → α → DayMap)
    (h : ∀ m r, dmKeys (body m r) = dmKeys m) (l : List α) :
    ∀ dm : DayMap, dmKeys (l.foldl body dm) = dmKeys dm := by
  induction l with
  | nil => intro dm; rfl
  | cons r rest ih =>
      intro dm
      simpa using (ih _).trans (h dm r)

theorem dmKeys_ite (m : DayMap) (d : Date) (e : Event) (c : Prop) [Decidable c] :
    dmKeys (if c then appendAt m d e else m) = dmKeys m := by
  split
  · exact dmKeys_appendAt m d e
  · rfl

theorem dmKeys_shiftBody (m : DayMap) (r : RotaRow) :
    dmKeys (shiftBody m r) = dmKeys m := by
  rcases r with ⟨rdate, rstaff, rstart, rend⟩
  rcases rdate with - | d
  · rfl
  · simp only [shiftBody]
    exact dmKeys_ite m d _ _

theorem dmKeys_shiftStage (rows : List RotaRow) (dm : DayMap) :
    dmKeys (shiftStage dm rows) = dmKeys dm :=
  dmKeys_foldl shiftBody dmKeys_shiftBody rows dm

theorem dmKeys_monthSkeleton (y m : Nat) :
    dmKeys (monthSkeleton y m) = monthDates y m := by
  simp [dmKeys, monthSkeleton, List.map_map, Function.comp_def]

/-- C5: the key set of the resulting DayMap is exactly the contiguous
dates of the target month — day 1 through the last day, 29 keys for a
leap-year February — and no insertion stage ever adds or removes a key,
whatever the inputs supply (out-of-month events cannot create keys). -/
theorem claim5_daymap_keys (y m : Nat) (acts : List ActivityRow)
    (rota : List RotaRow) (rules : List Rule) (inc : Bool)
    (hols : List HolidayInput) :
    dmKeys (seat_activity_into_calendar y m acts rota rules inc hols) =
      monthDates y m ∧
    (monthDates y m).map Date.day = List.range' 1 (daysInMonthN y m) ∧
    (monthDates 2024 2).length = 29 := by
  refine ⟨?_, monthDates_days y m, by decide⟩
  simp only [seat_activity_into_calendar]
  rw [dmKeys_map_fst _ (fun p => (p.1, daySort p.2)) (fun p => rfl),
    dmKeys_foldl insertEventDM (fun m' r => dmKeys_insertEventDM m' r),
    dmKeys_shiftStage]
  cases inc
  · simpa using dmKeys_monthSkeleton y m
  · simpa using (dmKeys_holidayFold hols _ _).trans (dmKeys_monthSkeleton y m)

theorem all_daySort (P : Event → Bool) (l : List Event) :
    (daySort l).all P = l.all P := by
  have hperm := List.perm_insertionSort evLe l
  by_cases h : l.all P = true
  · rw [h, List.all_eq_true]
    rw [List.all_eq_true] at h
    intro x hx
    exact h x (hperm.mem_iff.mp hx)
  · have h2 : ¬ (daySort l).all P = true := by
      intro hh
      rw [List.all_eq_true] at hh
      exact h (List.all_eq_true.mpr (fun x hx => hh x (hperm.mem_iff.mpr hx)))
    rw [Bool.not_eq_true] at h h2
    rw [h, h2]

theorem dayAll_appendAt (P : Event → Bool) (dm : DayMap) (d : Date) (e : Event)
    (hdm : dayAll P dm = true) (he : P e = true) :
    dayAll P (appendAt dm d e) = true := by
  rw [dayAll, List.all_eq_true] at hdm ⊢
  intro p hp
  obtain ⟨q, hq, rfl⟩ := List.mem_map.mp hp
  by_cases h : q.1 = d
  · simp only [h, if_pos rfl, List.all_append, List.all_cons, List.all_nil]
    simp [hdm q hq, he]
  · simpa [h] using hdm q hq

theorem dayAll_ite (P : Event → Bool) (dm : DayMap) (d : Date) (e : Event)
    (c : Prop) [Decidable c] (hdm : dayAll P dm = true) (he : P e = true) :
    dayAll P (if c then appendAt dm d e else dm) = true := by
  split
  · exact dayAll_appendAt P dm d e hdm he
  · exact hdm

theorem dayAll_shiftBody (P : Event → Bool)
    (hP : ∀ t : String, P ⟨none, t, "staff shift"⟩ = true)
    (m : DayMap) (r : RotaRow) (hdm : dayAll P m = true) :
    dayAll P (shiftBody m r) = true := by
  rcases r with ⟨rdate, rstaff, rstart, rend⟩
  rcases rdate with - | d
  · exact hdm
  · simp only [shiftBody]
    exact dayAll_ite P m d _ _ hdm (hP _)

theorem dayAll_foldl_mem {α : Type} (P : Event → Bool) (body : DayMap → α → DayMap)
    (l : List α)
    (h : ∀ m r, r ∈ l → dayAll P m = true → dayAll P (body m r) = true) :
    ∀ dm : DayMap, dayAll P dm = true → dayAll P (l.foldl body dm) = true := by
  induction l with
  | nil => intro dm hdm; exact hdm
  | cons r rest ih =>
      intro dm hdm
      exact ih (fun m q hq => h m q (List.mem_cons_of_mem r hq)) _
        (h dm r (List.mem_cons_self r rest) hdm)

theorem insertCandidate_all (P : Event → Bool) (es : List Event) (c : Event)
    (hes : es.all P = true) (hc : P c = true) :
    (insertCandidate es c).all P = true := by
  by_cases hd : dupPred es c
  · rw [(insertCandidate_eq_iff es c).1.mpr hd]
    exact hes
  · rw [(insertCandidate_eq_iff es c).2.mpr hd]
    simp [List.all_append, hes, hc]

theorem dayAll_insertEventDM (P : Event → Bool) (dm : DayMap) (p : Date × Event)
    (hdm : dayAll P dm = true) (hp : P p.2 = true) :
    dayAll P (insertEventDM dm p) = true := by
  rw [dayAll, List.all_eq_true] at hdm ⊢
  intro q hq
  obtain ⟨w, hw, rfl⟩ := List.mem_map.mp hq
  by_cases h : w.1 = p.1
  · simp only [h, if_pos rfl]
    exact insertCandidate_all P w.2 p.2 (hdm w hw) hp
  · simpa [h] using hdm w hw

theorem fixedStage_notes (dates : List Date) (rules : List Rule) :
    ∀ ev ∈ fixedStage dates rules, ev.notes = "fixed" := by
  intro ev h
  simp only [fixedStage, List.mem_flatMap, List.mem_map] at h
  obtain ⟨rule, -, d, -, rfl⟩ := h
  rfl

theorem actLoop_notes (prefDays : List String) (freq : Nat) (tm name : String)
    (dates : List Date) (placed : Nat) :
    ∀ ev ∈ actLoop prefDays freq tm name dates placed, ev.notes = "activity" := by
  intro ev h
  rcases freq with - | n
  · rw [actLoop_zero] at h
    obtain ⟨d, -, rfl⟩ := List.mem_map.mp h
    rfl
  · rw [actLoop_pos prefDays tm name (n + 1) (by omega)] at h
    obtain ⟨d, -, rfl⟩ := List.mem_map.mp h
    rfl

theorem activityStage_notes (dates : List Date) (rows : List ActivityRow) :
    ∀ ev ∈ activityStage dates rows, ev.notes = "activity" := by
  intro ev h
  simp only [activityStage, List.mem_flatMap] at h
  obtain ⟨r, -, hm⟩ := h
  exact actLoop_notes _ _ _ _ _ _ ev hm

theorem dayAll_sorted_map (P : Event → Bool) (dm : DayMap)
    (hdm : dayAll P dm = true) :
    dayAll P (dm.map (fun p => (p.1, daySort p.2))) = true := by
  rw [dayAll, List.all_eq_true] at hdm ⊢
  intro q hq
  obtain ⟨w, hw, rfl⟩ := List.mem_map.mp hq
  show (daySort w.2).all P = true
  rw [all_daySort]
  exact hdm w hw

theorem dayAll_monthSkeleton (P : Event → Bool) (y m : Nat) :
    dayAll P (monthSkeleton y m) = true := by
  rw [dayAll, List.all_eq_true]
  intro q hq
  obtain ⟨d, -, rfl⟩ := List.mem_map.mp hq
  rfl

/-- C7: with `include_holidays = false` the holiday stage is skipped
entirely — the result equals a run whose holiday input is empty with the
other stages untouched, and no event of the resulting DayMap carries the
`Holiday` category. -/
theorem claim7_skip_holidays (y m : Nat) (acts : List ActivityRow)
    (rota : List RotaRow) (rules : List Rule) (hols : List HolidayInput) :
    seat_activity_into_calendar y m acts rota rules false hols =
      seat_activity_into_calendar y m acts rota rules true [] ∧
    dayAll (fun e => e.notes ≠ "Holiday")
      (seat_activity_into_calendar y m acts rota rules false hols) = true := by
  constructor
  · rfl
  · simp only [seat_activity_into_calendar]
    rw [if_neg (by simp)]
    apply dayAll_sorted_map
    apply dayAll_foldl_mem
    · intro dm p hp hdm
      apply dayAll_insertEventDM _ _ _ hdm
      obtain ⟨raw, hraw, rfl⟩ := List.mem_map.mp hp
      rcases List.mem_append.mp hraw with hf | ha
      · have hn := fixedStage_notes _ _ raw hf
        simp [normEvent, hn]
      · have hn := activityStage_notes _ _ raw ha
        simp [normEvent, hn]
    · apply dayAll_foldl_mem
      · intro m' r _ hdm
        refine dayAll_shiftBody _ (fun t => by simp) m' r hdm
      · exact dayAll_monthSkeleton _ y m

theorem digit_ne_colon {x : Char} (hd : pyIsDigitChar x = true) : x ≠ ':' := by
  intro h
  subst h
  exact absurd hd (by decide)

theorem shape_to_match (cs h : List Char) (mo : Option (List Char))
    (hlen : h.length = 1 ∨ h.length = 2) (hdig : h.all pyIsDigitChar = true)
    (hm : (mo = none ∧ cs = h) ∨
      (∃ m, mo = some m ∧ m.length = 2 ∧ m.all pyIsDigitChar = true ∧
        (cs = h ++ ':' :: m ∨ cs = h ++ m))) :
    matchTimePattern cs = some (h, mo) := by
  rcases hm with ⟨rfl, rfl⟩ | ⟨m, rfl, hm⟩
  · rcases hlen with h1 | h2
    · obtain ⟨x, rfl⟩ := List.length_eq_one.mp h1
      simp only [List.all_cons, List.all_nil, Bool.and_true] at hdig
      simp [matchTimePattern, hdig]
    · obtain ⟨x, y, rfl⟩ := List.length_eq_two.mp h2
      simp only [List.all_cons, List.all_nil, Bool.and_true, Bool.and_eq_true] at hdig
      simp [matchTimePattern, hdig.1, hdig.2, digit_ne_colon hdig.2]
  · obtain ⟨hm2, hmdig, hcs | hcs⟩ := hm <;>
      obtain ⟨m1, m2, rfl⟩ := List.length_eq_two.mp hm2 <;>
      simp only [List.all_cons, List.all_nil, Bool.and_true, Bool.and_eq_true] at hmdig <;>
      rcases hlen with h1 | h2
    · obtain ⟨x, rfl⟩ := List.length_eq_one.mp h1
      simp only [List.all_cons, List.all_nil, Bool.and_true] at hdig
      subst hcs
      simp [matchTimePattern, hdig, hmdig.1, hmdig.2]
    · obtain ⟨x, y, rfl⟩ := List.length_eq_two.mp h2
      simp only [List.all_cons, List.all_nil, Bool.and_true, Bool.and_eq_true] at hdig
      subst hcs
      simp [matchTimePattern, hdig.1, hdig.2, hmdig.1, hmdig.2, digit_ne_colon hdig.2]
    · obtain ⟨x, rfl⟩ := List.length_eq_one.mp h1
      simp only [List.all_cons, List.all_nil, Bool.and_true] at hdig
      subst hcs
      simp [matchTimePattern, hdig, hmdig.1, hmdig.2, digit_ne_colon hmdig.1,
        digit_ne_colon hmdig.2]
    · obtain ⟨x, y, rfl⟩ := List.length_eq_two.mp h2
      simp only [List.all_cons, List.all_nil, Bool.and_true, Bool.and_eq_true] at hdig
      subst hcs
      simp [matchTimePattern, hdig.1, hdig.2, hmdig.1, hmdig.2,
        digit_ne_colon hdig.2, digit_ne_colon hmdig.1, digit_ne_colon hmdig.2]

theorem match_to_shape (cs h : List Char) (mo : Option (List Char))
    (hm : matchTimePattern cs = some (h, mo)) :
    (h.length = 1 ∨ h.length = 2) ∧ h.all pyIsDigitChar = true ∧
      ((mo = none ∧ cs = h) ∨
        (∃ m, mo = some m ∧ m.length = 2 ∧ m.all pyIsDigitChar = true ∧
          (cs = h ++ ':' :: m ∨ cs = h ++ m))) := by
  rcases cs with - | ⟨a, - | ⟨b, - | ⟨c, - | ⟨d, - | ⟨e, - | ⟨f, rest⟩⟩⟩⟩⟩⟩
  · exact absurd hm (by simp [matchTimePattern])
  · rw [matchTimePattern] at hm
    split_ifs at hm with h1
    obtain ⟨rfl, rfl⟩ := Prod.mk.injEq .. ▸ Option.some.inj hm
    simp [h1]
  · rw [matchTimePattern] at hm
    split_ifs at hm with h1 h2
    obtain ⟨rfl, rfl⟩ := Prod.mk.injEq .. ▸ Option.some.inj hm
    simp only [Bool.and_eq_true] at h2
    simp [h2.1, h2.2]
  · rw [matchTimePattern] at hm
    split_ifs at hm with h1 h2
    obtain ⟨rfl, rfl⟩ := Prod.mk.injEq .. ▸ Option.some.inj hm
    simp only [Bool.and_eq_true] at h2
    obtain ⟨⟨ha, hb⟩, hc⟩ := h2
    simp [ha, hb, hc]
  · rw [matchTimePattern] at hm
    split_ifs at hm with h1 h2 h3 h4
    · obtain ⟨rfl, rfl⟩ := Prod.mk.injEq .. ▸ Option.some.inj hm
      simp only [Bool.and_eq_true] at h2
      obtain ⟨⟨ha, hc⟩, hd⟩ := h2
      subst h1
      simp [ha, hc, hd]
    · obtain ⟨rfl, rfl⟩ := Prod.mk.injEq .. ▸ Option.some.inj hm
      simp only [Bool.and_eq_true] at h4
      obtain ⟨⟨⟨ha, hb⟩, hc⟩, hd⟩ := h4
      simp [ha, hb, hc, hd]
  · rw [matchTimePattern] at hm
    split_ifs at hm with h1 h2
    obtain ⟨rfl, rfl⟩ := Prod.mk.injEq .. ▸ Option.some.inj hm
    simp only [Bool.and_eq_true] at h2
    obtain ⟨⟨⟨ha, hb⟩, hd⟩, he⟩ := h2
    subst h1
    simp [ha, hb, hd, he]
  · exact absurd hm (by simp [matchTimePattern])

theorem normalize_time_none_iff (t : String) :
    normalize_time t = none ↔ ¬ acceptedTimeShape (pyCleanTime t) := by
  unfold normalize_time
  rcases hmp : matchTimePattern (pyCleanTime t).data with - | ⟨h, mo⟩
  · refine iff_of_true rfl ?_
    rintro ⟨hcs, mo', hlen, hdig, hmatch⟩
    exact absurd (shape_to_match _ _ _ hlen hdig hmatch) (by simp [hmp])
  · refine iff_of_false (by simp) (not_not_intro ?_)
    obtain ⟨hlen, hdig, hmatch⟩ := match_to_shape _ _ _ hmp
    exact ⟨h, mo, hlen, hdig, hmatch⟩

theorem normalize_time_some_iff (t out : String) :
    normalize_time t = some out ↔ ∃ hcs mo, shapeW (pyCleanTime t) hcs mo ∧
      out = ⟨zfill2 hcs ++ ':' :: mo.getD ['0', '0']⟩ := by
  unfold normalize_time
  rcases hmp : matchTimePattern (pyCleanTime t).data with - | ⟨h, mo⟩
  · refine iff_of_false (by simp) ?_
    rintro ⟨hcs, mo', ⟨hlen, hdig, hmatch⟩, -⟩
    exact absurd (shape_to_match _ _ _ hlen hdig hmatch) (by simp [hmp])
  · simp only [Option.some.injEq]
    constructor
    · intro heq
      obtain ⟨hlen, hdig, hmatch⟩ := match_to_shape _ _ _ hmp
      exact ⟨h, mo, ⟨hlen, hdig, hmatch⟩, heq.symm⟩
    · rintro ⟨hcs, mo', ⟨hlen, hdig, hmatch⟩, rfl⟩
      have := (shape_to_match _ _ _ hlen hdig hmatch).symm.trans hmp
      obtain ⟨rfl, rfl⟩ := Prod.mk.injEq .. ▸ Option.some.inj this
      rfl

/-- C3 counterexample: the input `"230"` does not match the spec's written
shape `digits[:digits]` (1-2 digit hour, optional colon-prefixed 2-digit
minute), yet the normalizer returns `"02:30"` for it rather than no-time,
because the colon in the source's accepted pattern is itself optional. -/
theorem claim3_counterexample :
    normalize_time "230" = some "02:30" ∧ ¬ specTimeShape (pyCleanTime "230") := by
  refine ⟨rfl, ?_⟩
  have hc : pyCleanTime "230" = "230" := rfl
  rw [hc]
  rintro ⟨hcs, hlen, -, hcase | ⟨mcs, hm2, -, heq⟩⟩
  · have h3 : hcs.length = 3 := by
      have := congrArg List.length hcase
      simpa using this.symm
    omega
  · have h3 : ("230" : String).data.length = 3 := rfl
    rw [heq] at h3
    simp only [List.length_append, List.length_cons] at h3
    omega

/-- C3 (amended): the normalizer strips and removes spaces, lowercases,
turns `.` into `:`, and returns the zero-padded canonical `"HH:MM"` (hour
zero-padded to two digits, missing minute defaulting to `"00"`) exactly
when the cleaned input is a 1-2 digit hour optionally followed by a
2-digit minute whose separating colon is itself optional; every other
input — AM/PM-suffixed forms, non-numeric tokens — yields no-time.  In
particular `"2:30"` gives `"02:30"`, `"14.45"` gives `"14:45"`, `"230"`
gives `"02:30"`, and `"2:30pm"` and `""` give no-time. -/
theorem claim3_time_normalizer (t out : String) :
    (normalize_time t = none ↔ ¬ acceptedTimeShape (pyCleanTime t)) ∧
    (normalize_time t = some out ↔ ∃ hcs mo, shapeW (pyCleanTime t) hcs mo ∧
      out = ⟨zfill2 hcs ++ ':' :: mo.getD ['0', '0']⟩) ∧
    normalize_time "2:30" = some "02:30" ∧
    normalize_time "14.45" = some "14:45" ∧
    normalize_time "2:30pm" = none ∧
    normalize_time "" = none ∧
    normalize_time "230" = some "02:30" :=
  ⟨normalize_time_none_iff t, normalize_time_some_iff t out,
    rfl, rfl, rfl, rfl, rfl⟩

theorem digit_range {c : Char} (h : pyIsDigitChar c = true) :
    48 ≤ c.toNat ∧ c.toNat ≤ 57 := by
  simpa [pyIsDigitChar, Bool.and_eq_true, decide_eq_true_eq] using h

theorem char_ne_of_toNat {c d : Char} (h : c.toNat ≠ d.toNat) : c ≠ d :=
  fun he => h (congrArg Char.toNat he)

theorem digit_not_ws {c : Char} (h : pyIsDigitChar c = true) : pyIsWs c = false := by
  obtain ⟨h1, h2⟩ := digit_range h
  have hsp : (' ' : Char).toNat = 32 := rfl
  have hta : ('\t' : Char).toNat = 9 := rfl
  have hnl : ('\n' : Char).toNat = 10 := rfl
  have hcr : ('\r' : Char).toNat = 13 := rfl
  simp only [pyIsWs, Bool.or_eq_false_iff, decide_eq_false_iff_not]
  refine ⟨⟨⟨⟨⟨char_ne_of_toNat (by omega), char_ne_of_toNat (by omega)⟩,
    char_ne_of_toNat (by omega)⟩, char_ne_of_toNat (by omega)⟩, by omega⟩, by omega⟩

theorem digit_lowerChar {c : Char} (h : pyIsDigitChar c = true) :
    pyLowerChar c = c := by
  obtain ⟨h1, h2⟩ := digit_range h
  rw [pyLowerChar, if_neg]
  simp only [Bool.and_eq_true, decide_eq_true_eq, not_and]
  omega

theorem dropWhile_eq_self_of {p : Char → Bool} {l : List Char}
    (h : ∀ c ∈ l, p c = false) : l.dropWhile p = l := by
  cases l with
  | nil => rfl
  | cons a t => simp [List.dropWhile_cons, h a (List.mem_cons_self a t)]

theorem map_eq_self_of {f : Char → Char} {l : List Char}
    (h : ∀ c ∈ l, f c = c) : l.map f = l := by
  induction l with
  | nil => rfl
  | cons a t ih =>
      simp [h a (List.mem_cons_self a t),
        ih (fun c hc => h c (List.mem_cons_of_mem a hc))]

theorem flatMap_eq_self_of {f : Char → List Char} {l : List Char}
    (h : ∀ c ∈ l, f c = [c]) : l.flatMap f = l := by
  induction l with
  | nil => rfl
  | cons a t ih =>
      simp [List.flatMap_cons, h a (List.mem_cons_self a t),
        ih (fun c hc => h c (List.mem_cons_of_mem a hc))]

theorem pyCleanTime_digits (s : String) (hdig : s.data.all pyIsDigitChar = true) :
    pyCleanTime s = s := by
  rw [List.all_eq_true] at hdig
  have hstrip : pyStrip s = s := by
    rw [pyStrip, dropWhile_eq_self_of (fun c hc => digit_not_ws (hdig c hc))]
    rw [dropWhile_eq_self_of (fun c hc =>
      digit_not_ws (hdig c (List.mem_reverse.mp hc)))]
    simp
  have hlower : pyLower s = s := by
    rw [pyLower, map_eq_self_of (fun c hc => digit_lowerChar (hdig c hc))]
  have hdot : pyReplaceChar '.' ":" s = s := by
    rw [pyReplaceChar, flatMap_eq_self_of ?_]
    intro c hc
    rw [if_neg]
    obtain ⟨h1, h2⟩ := digit_range (hdig c hc)
    have hdn : ('.' : Char).toNat = 46 := rfl
    exact char_ne_of_toNat (by omega)
  have hsp : pyReplaceChar ' ' "" s = s := by
    rw [pyReplaceChar, flatMap_eq_self_of ?_]
    intro c hc
    rw [if_neg]
    obtain ⟨h1, h2⟩ := digit_range (hdig c hc)
    have hspn : (' ' : Char).toNat = 32 := rfl
    exact char_ne_of_toNat (by omega)
  rw [pyCleanTime, hstrip, hlower, hdot, hsp]

theorem matchTimePattern_digits (cs : List Char)
    (hdig : cs.all pyIsDigitChar = true) :
    (cs.length = 3 → matchTimePattern cs = some (cs.take 1, some (cs.drop 1))) ∧
    (cs.length = 4 → matchTimePattern cs = some (cs.take 2, some (cs.drop 2))) := by
  rcases cs with - | ⟨a, - | ⟨b, - | ⟨c, - | ⟨d, - | ⟨e, t⟩⟩⟩⟩⟩
  · exact ⟨by intro h; simp at h, by intro h; simp at h⟩
  · exact ⟨by intro h; simp at h, by intro h; simp at h⟩
  · exact ⟨by intro h; simp at h, by intro h; simp at h⟩
  · refine ⟨fun _ => ?_, by intro h; simp at h⟩
    simp only [List.all_cons, Bool.and_eq_true] at hdig
    obtain ⟨ha, hb, hc, -⟩ := hdig
    simp [matchTimePattern, ha, hb, hc, digit_ne_colon hb, digit_ne_colon hc]
  · refine ⟨by intro h; simp at h, fun _ => ?_⟩
    simp only [List.all_cons, Bool.and_eq_true] at hdig
    obtain ⟨ha, hb, hc, hd, -⟩ := hdig
    simp [matchTimePattern, ha, hb, hc, hd, digit_ne_colon hb, digit_ne_colon hc,
      digit_ne_colon hd]
  · refine ⟨by intro h; simp at h, by intro h; simp at h⟩

/-- C8: the pattern's optional colon admits pure digit strings: every 3- or
4-character all-digit input is normalized with its trailing two digits as
the minute — `"1445"` gives `"14:45"` and `"230"` gives `"02:30"`. -/
theorem claim8_digit_only_times (s : String)
    (hdig : s.data.all pyIsDigitChar = true)
    (hlen : s.data.length = 3 ∨ s.data.length = 4) :
    normalize_time s = some ⟨zfill2 (s.data.take (s.data.length - 2)) ++
      ':' :: s.data.drop (s.data.length - 2)⟩ ∧
    normalize_time "1445" = some "14:45" ∧
    normalize_time "230" = some "02:30" := by
  refine ⟨?_, rfl, rfl⟩
  have hc : pyCleanTime s = s := pyCleanTime_digits s hdig
  unfold normalize_time
  rw [hc]
  rcases hlen with h3 | h4
  · rw [(matchTimePattern_digits s.data hdig).1 h3, h3]
    rfl
  · rw [(matchTimePattern_digits s.data hdig).2 h4, h4]
    rfl

theorem claim8_digit_only_times_witness :
    ("1445" : String).data.all pyIsDigitChar = true ∧
    (("1445" : String).data.length = 3 ∨ ("1445" : String).data.length = 4) ∧
    normalize_time "1445" = some ⟨zfill2 (("1445" : String).data.take
      (("1445" : String).data.length - 2)) ++
      ':' :: ("1445" : String).data.drop (("1445" : String).data.length - 2)⟩ :=
  ⟨by decide, by decide,
    (claim8_digit_only_times "1445" (by decide) (by decide)).1⟩

theorem clockOfString_le (t : String) (v : Nat) (h : clockOfString t = some v) :
    v ≤ 1439 := by
  unfold clockOfString at h
  rcases hs : pySplitChar ':' t with - | ⟨p1, - | ⟨p2, - | ⟨p3, rest⟩⟩⟩ <;>
    rw [hs] at h
  · simp at h
  · simp at h
  · replace h : (match pyInt p1, pyInt p2 with
        | some hv, some mv => if hv ≤ 23 ∧ mv ≤ 59 then some (hv * 60 + mv) else none
        | _, _ => none) = some v := h
    rcases h1 : pyInt p1 with - | hv <;> rcases h2 : pyInt p2 with - | mv <;>
      rw [h1, h2] at h
    · simp at h
    · simp at h
    · simp at h
    · simp only at h
      split_ifs at h with hb
      obtain rfl := Option.some.inj h
      omega
  · simp at h

/-- C9: the per-day sort key is total — every event's key is at most 23:59
(1439 minutes) — and an event whose time string does not parse as a valid
clock time receives exactly the end-of-day key, equal to the untimed key
of its category group and at least the key of every valid-time event of
that group.  The normalizer indeed produces the out-of-range canonical
string `"99:00"` from input `"99"`, and the sort treats it as 23:59. -/
theorem claim9_sort_total (e : Event) (t ti n u : String) (v : Nat)
    (hinv : clockOfString t = none) (hval : clockOfString u = some v) :
    sortKeyTime e ≤ 1439 ∧
    sortKeyTime ⟨some t, ti, n⟩ = 1439 ∧
    keyNat ⟨some t, ti, n⟩ = keyNat ⟨none, ti, n⟩ ∧
    keyNat ⟨some u, ti, n⟩ ≤ keyNat ⟨some t, ti, n⟩ ∧
    normalize_time "99" = some "99:00" ∧
    clockOfString "99:00" = none ∧
    sortKeyTime ⟨some "99:00", "x", "activity"⟩ =
      sortKeyTime ⟨none, "x", "activity"⟩ := by
  have hb : sortKeyTime e ≤ 1439 := by
    rcases e with ⟨time, ti', n'⟩
    rcases time with - | t'
    · exact Nat.le_refl _
    · show (clockOfString t').getD 1439 ≤ 1439
      rcases hh : clockOfString t' with - | v'
      · simp
      · simpa using clockOfString_le t' v' hh
  refine ⟨hb, ?_, ?_, ?_, rfl, rfl, rfl⟩
  · show (clockOfString t).getD 1439 = 1439
    rw [hinv]
    rfl
  · show catPriority ⟨some t, ti, n⟩ * 1440 + (clockOfString t).getD 1439 = _
    rw [hinv]
    rfl
  · show catPriority ⟨some u, ti, n⟩ * 1440 + (clockOfString u).getD 1439 ≤
      catPriority ⟨some t, ti, n⟩ * 1440 + (clockOfString t).getD 1439
    rw [hinv, hval]
    have := clockOfString_le u v hval
    have hcat : catPriority ⟨some u, ti, n⟩ = catPriority ⟨some t, ti, n⟩ := rfl
    rw [hcat]
    simp only [Option.getD_some, Option.getD_none]
    omega

theorem claim9_sort_total_witness :
    clockOfString "99:00" = none ∧
    clockOfString "18:00" = some 1080 ∧
    (sortKeyTime ⟨none, "y", "fixed"⟩ ≤ 1439 ∧
      sortKeyTime ⟨some "99:00", "y", "fixed"⟩ = 1439 ∧
      keyNat ⟨some "99:00", "y", "fixed"⟩ = keyNat ⟨none, "y", "fixed"⟩ ∧
      keyNat ⟨some "18:00", "y", "fixed"⟩ ≤ keyNat ⟨some "99:00", "y", "fixed"⟩ ∧
      normalize_time "99" = some "99:00" ∧
      clockOfString "99:00" = none ∧
      sortKeyTime ⟨some "99:00", "x", "activity"⟩ =
        sortKeyTime ⟨none, "x", "activity"⟩) :=
  ⟨by decide, by decide,
    claim9_sort_total ⟨none, "y", "fixed"⟩ "99:00" "y" "fixed" "18:00" 1080
      (by decide) (by decide)⟩

/-- C6 demonstration: a cell whose text has thirteen one-word plain logical
lines (at cell corner y = 1 mm, the grid's row height) draws all thirteen
sub-lines — none is dropped, although the cursor passes the usable bound
`y + 4 mm` after the eleventh — and the last sub-line is drawn below the
cell's own bottom edge, into the area of the cell beneath.  The budget
check of the source runs only in the timed/plain branch, after drawing,
and its `break` leaves only the inner wrapped-sub-line loop, so the claimed
whole-cell truncation does not happen. -/
theorem claim6_render_overflow :
    (drawCell 10 rowHeight demoCellText).length = 13 ∧
    (drawCell 10 rowHeight demoCellText).any
      (fun dr => decide (dr.ypos < 10 + 40)) = true ∧
    (drawCell 10 rowHeight demoCellText).any
      (fun dr => decide (dr.ypos < 10)) = true := by
  refine ⟨by decide, by decide, by decide⟩
